import Mathlib

/-!
Verification of the Clean-Video core algorithms.

Times are modelled as rationals (ℚ); Python lists as Lean lists; the
stateful loops of the source as explicit state-passing recursions.
-/

namespace CleanVideo

/-! ## Temporal segmentation engine (core/cleaner.py, remove_video_silence) -/

/-- Embeds the middle loop of remove_video_silence (cleaner.py lines 51-54):
walks the speech segments after the first, appending a silence gap
(previous_end, segment.start) whenever the gap exceeds gap_threshold, and
threading previous_end.  Returns the collected gaps together with the final
value of previous_end. -/
def gapsGo (gap_threshold : ℚ) (previous_end : ℚ) : List (ℚ × ℚ) → List (ℚ × ℚ) × ℚ
  | [] => ([], previous_end)
  | seg :: rest =>
    let r := gapsGo gap_threshold seg.2 rest
    ((if seg.1 - previous_end > gap_threshold then [(previous_end, seg.1)] else []) ++ r.1, r.2)

/-- Embeds the construction of segments_to_delete (cleaner.py lines 36-58):
leading gap when the first speech segment starts after gap_threshold, middle
gaps from the loop, trailing gap when the video outlasts the last segment by
more than gap_threshold.  An empty speech list makes the source return early
with no gaps. -/
def segments_to_delete (speech : List (ℚ × ℚ)) (video_duration gap_threshold : ℚ) :
    List (ℚ × ℚ) :=
  match speech with
  | [] => []
  | first :: rest =>
    let lead := if first.1 > gap_threshold then [((0 : ℚ), first.1)] else []
    let mid := gapsGo gap_threshold first.2 rest
    let trail :=
      if video_duration - mid.2 > gap_threshold then [(mid.2, video_duration)] else []
    lead ++ mid.1 ++ trail

/-- Embeds the keep loop of remove_video_silence (cleaner.py lines 77-94):
for each silence gap, close the current keep block at silence_start +
half_gap (emitted only when its end strictly exceeds its start) and open the
next block at silence_end - half_gap; after the last gap, emit a final block
up to video_duration when the open point is strictly below it. -/
def keepGo (half_gap video_duration : ℚ) (previous_keep_end : ℚ) :
    List (ℚ × ℚ) → List (ℚ × ℚ)
  | [] =>
    if previous_keep_end < video_duration then [(previous_keep_end, video_duration)] else []
  | d :: rest =>
    (if d.1 + half_gap > previous_keep_end then [(previous_keep_end, d.1 + half_gap)] else [])
      ++ keepGo half_gap video_duration (d.2 - half_gap) rest

/-- Embeds segments_to_keep (cleaner.py lines 64-94): the keep loop started
with previous_keep_end_inc_buffer = 0 and half_gap = gap_threshold / 2. -/
def segments_to_keep (dels : List (ℚ × ℚ)) (video_duration gap_threshold : ℚ) :
    List (ℚ × ℚ) :=
  keepGo (gap_threshold / 2) video_duration 0 dels

/-- Embeds the keep-interval computation of remove_video_silence end to end:
silence gaps from the speech intervals, then the buffered keep intervals.
When no gap is materialized the source returns early (cleaner.py lines
60-62) and no keep interval is ever computed, embedded as the empty list. -/
def computeKeepIntervals (speech : List (ℚ × ℚ)) (video_duration gap_threshold : ℚ) :
    List (ℚ × ℚ) :=
  let dels := segments_to_delete speech video_duration gap_threshold
  if dels = [] then [] else segments_to_keep dels video_duration gap_threshold

/-! ## Filter-graph synthesis (core/cleaner.py, lines 100-112) -/

/-- One entry of the ffmpeg filter_complex built by remove_video_silence:
either the video trim for keep interval i (the string
"[0:v]trim=start=..:end=..,setpts=PTS-STARTPTS[v i]") or the audio trim
(the string "[0:a]atrim=start=..:end=..,asetpts=PTS-STARTPTS[a i]"),
embedded structurally by its label index and trim range. -/
inductive FilterOp where
  | vtrim (i : ℕ) (s e : ℚ)
  | atrim (i : ℕ) (s e : ℚ)
deriving DecidableEq

/-- Embeds the ffmpeg command construction of remove_video_silence
(cleaner.py lines 102-112): the filter parts list, the concat input pair
labels (one [v i][a i] pair per keep interval, embedded by the index i),
and the segment count n passed to concat. -/
structure TranscodeSpec where
  filter_parts : List FilterOp
  concat_inputs : List ℕ
  concat_n : ℕ
deriving DecidableEq

/-- Embeds the enumerate loop of cleaner.py lines 105-108: for the i-th keep
interval, append the video trim, the audio trim, and the concat pair
label. -/
def buildGo : ℕ → List (ℚ × ℚ) → List FilterOp × List ℕ
  | _, [] => ([], [])
  | i, se :: rest =>
    let r := buildGo (i + 1) rest
    (FilterOp.vtrim i se.1 se.2 :: FilterOp.atrim i se.1 se.2 :: r.1, i :: r.2)

/-- Embeds buildTranscodeSpec, the filter-graph construction of
remove_video_silence over the keep intervals. -/
def buildTranscodeSpec (keeps : List (ℚ × ℚ)) : TranscodeSpec :=
  let r := buildGo 0 keeps
  ⟨r.1, r.2, keeps.length⟩

/-! ## Subtitle refinement pipeline (core/editor.py) -/

/-- Embeds one srt.Subtitle object as used by editor.py: the srt index (the
stable id), the start and end timestamps, and the text content.  The field
endT stands for the source attribute named end. -/
structure SubLine where
  index : ℤ
  start : ℚ
  endT : ℚ
  content : String
deriving DecidableEq

/-- Embeds the pydantic model ModifiedSentence of editor.py (lines 15-17):
the refined text of one line plus the merge flag, which defaults to
false. -/
structure ModifiedSentence where
  output : String
  should_merge_next : Bool := false
deriving DecidableEq

/-- Embeds the per-position fallback of ai_refine_subtitles (lines 237-239):
ModifiedSentence(output=subtitles[idx].content), with the merge flag left at
its default false. -/
def fallbackResult (subtitles : List SubLine) (idx : ℕ) : ModifiedSentence :=
  ⟨((subtitles[idx]?).map SubLine.content).getD "", false⟩

/-- Embeds the body of the as_completed loop of ai_refine_subtitles (lines
233-239) for one task: the task outcome is some data when the external
rewrite task (process_single_subtitle, which is absent from the sources and
is treated as an opaque external call) returns data, and none when it
raises or returns nothing; in the latter case the result degrades to the
fallback. -/
def resolveResult (subtitles : List SubLine) (outcomes : ℕ → Option ModifiedSentence)
    (idx : ℕ) : ModifiedSentence :=
  match outcomes idx with
  | some data => data
  | none => fallbackResult subtitles idx

/-- Embeds the construction of the results dict of ai_refine_subtitles
(lines 226-239): tasks complete in an arbitrary order (the list of
positions in completion order) and each completed task stores its resolved
result under its own position key. -/
def dispatchResults (subtitles : List SubLine) (outcomes : ℕ → Option ModifiedSentence)
    (order : List ℕ) : List (ℕ × ModifiedSentence) :=
  order.map (fun idx => (idx, resolveResult subtitles outcomes idx))

/-- Python dict lookup on the results dict: the value stored under the first
occurrence of the key. -/
def dictLookup (results : List (ℕ × ModifiedSentence)) (k : ℕ) : Option ModifiedSentence :=
  (results.find? (fun p => p.1 == k)).map Prod.snd

/-- Embeds sorted(results.keys()) of editor.py line 247. -/
def sortedKeys (results : List (ℕ × ModifiedSentence)) : List ℕ :=
  List.insertionSort (· ≤ ·) (results.map Prod.fst)

/-- State of the reassembly loop of ai_refine_subtitles (lines 244-263): the
subtitles list mutated in place, the skip_indices set, and the
final_subtitles accumulator, which the source initializes to the empty list
and never appends to. -/
structure ReasmState where
  subs : List SubLine
  skips : List ℕ
  finals : List SubLine
deriving DecidableEq

/-- Embeds one iteration of the reassembly loop at position i (editor.py
lines 249-262): skipped positions are passed over; otherwise the line's
content is set to the refined output; when the merge flag is set and a
result exists for position i+1 and the concatenated text has at most 30
characters, the line instead receives the concatenation, its end timestamp
is extended to line i+1's end, and i+1 joins skip_indices.  The source
indexes subtitles[i] and subtitles[i+1] directly; the none branches embed
the fact that results keys are always valid subtitle positions. -/
def reasmStep (results : ℕ → Option ModifiedSentence) (st : ReasmState) (i : ℕ) :
    ReasmState :=
  if i ∈ st.skips then st
  else
    match results i, st.subs[i]? with
    | some curData, some cur =>
      let subs1 := st.subs.set i { cur with content := curData.output }
      match (if curData.should_merge_next then results (i + 1) else none), st.subs[i + 1]? with
      | some nextData, some nxt =>
        if (curData.output ++ nextData.output).length ≤ 30 then
          { subs := subs1.set i
              { cur with content := curData.output ++ nextData.output, endT := nxt.endT },
            skips := (i + 1) :: st.skips,
            finals := st.finals }
        else { subs := subs1, skips := st.skips, finals := st.finals }
      | _, _ => { subs := subs1, skips := st.skips, finals := st.finals }
    | _, _ => st

/-- Embeds the reassembly loop driver: iterate the sorted key list in
order, threading the loop state. -/
def reasmGoKeys (results : ℕ → Option ModifiedSentence) :
    List ℕ → ReasmState → ReasmState
  | [], st => st
  | i :: rest, st => reasmGoKeys results rest (reasmStep results st i)

/-- Embeds the reassembly step of ai_refine_subtitles (lines 244-263) applied
to a results dict: loop over sorted(results.keys()) starting from the
parsed subtitles, the empty skip set and the empty final_subtitles list. -/
def reassemble (subtitles : List SubLine) (results : List (ℕ × ModifiedSentence)) :
    ReasmState :=
  reasmGoKeys (dictLookup results) (sortedKeys results) ⟨subtitles, [], []⟩

/-- Embeds ai_refine_subtitles end to end on parsed subtitles: dispatch the
per-line tasks (whose completion order is the order argument), then
reassemble. -/
def ai_refine_subtitles (subtitles : List SubLine)
    (outcomes : ℕ → Option ModifiedSentence) (order : List ℕ) : ReasmState :=
  reassemble subtitles (dispatchResults subtitles outcomes order)

/-- The subtitle sequence ai_refine_subtitles actually writes to the
intermediate file and returns: its final_subtitles accumulator. -/
def ai_refine_output (subtitles : List SubLine)
    (outcomes : ℕ → Option ModifiedSentence) (order : List ℕ) : List SubLine :=
  (ai_refine_subtitles subtitles outcomes order).finals


/-! ## Invariant infrastructure for the segmentation engine -/

/-- Every gap collected by gapsGo has length above the threshold and starts at
or after the end of the virtual previous segment, the gaps are chained
(each gap ends at or before the next one starts), every gap ends at or
before the final previous_end, and previous_end never decreases. -/
theorem gapsGo_spec (gap_threshold : ℚ) :
    ∀ (rest : List (ℚ × ℚ)) (previous_end : ℚ),
      (∀ p ∈ rest, p.1 ≤ p.2) →
      rest.Chain' (fun a b => a.2 ≤ b.1) →
      (∀ h ∈ rest.head?, previous_end ≤ h.1) →
      (∀ g ∈ (gapsGo gap_threshold previous_end rest).1,
          gap_threshold < g.2 - g.1 ∧ previous_end ≤ g.1 ∧
            g.2 ≤ (gapsGo gap_threshold previous_end rest).2) ∧
        (gapsGo gap_threshold previous_end rest).1.Chain' (fun a b => a.2 ≤ b.1) ∧
        previous_end ≤ (gapsGo gap_threshold previous_end rest).2 := by
  intro rest
  induction rest with
  | nil =>
    intro previous_end _ _ _
    simp [gapsGo]
  | cons seg rest ih =>
    intro previous_end hb hc hh
    have hseg : seg.1 ≤ seg.2 := hb seg (by simp)
    have hprev : previous_end ≤ seg.1 := hh seg (by simp)
    obtain ⟨ih1, ih2, ih3⟩ := ih seg.2 (fun p hp => hb p (by simp [hp]))
      (List.chain'_cons'.mp hc).2 (List.chain'_cons'.mp hc).1
    constructor
    · intro g hg
      simp only [gapsGo] at hg ⊢
      rcases List.mem_append.mp hg with hg | hg
      · by_cases h : seg.1 - previous_end > gap_threshold
        · simp [h] at hg
          subst hg
          refine ⟨by linarith, le_refl _, ?_⟩
          calc seg.1 ≤ seg.2 := hseg
            _ ≤ (gapsGo gap_threshold seg.2 rest).2 := ih3
        · simp [h] at hg
      · have := ih1 g hg
        exact ⟨this.1, le_trans (le_trans hprev hseg) this.2.1, this.2.2⟩
    constructor
    · simp only [gapsGo]
      by_cases h : seg.1 - previous_end > gap_threshold
      · simp only [h, if_pos]
        rw [List.singleton_append]
        rw [List.chain'_cons']
        refine ⟨?_, ih2⟩
        intro y hy
        have hy' := ih1 y (List.mem_of_mem_head? hy)
        calc (previous_end, seg.1).2 = seg.1 := rfl
          _ ≤ seg.2 := hseg
          _ ≤ y.1 := hy'.2.1
      · simp [h, ih2]
    · simp only [gapsGo]
      calc previous_end ≤ seg.2 := le_trans hprev hseg
        _ ≤ (gapsGo gap_threshold seg.2 rest).2 := ih3

/-- Every silence gap materialized by segments_to_delete has length strictly
above the threshold and a nonnegative start, and the gaps are chained in
order. -/
theorem segments_to_delete_spec (speech : List (ℚ × ℚ)) (video_duration gap_threshold : ℚ)
    (hb : ∀ p ∈ speech, 0 ≤ p.1 ∧ p.1 ≤ p.2)
    (hc : speech.Chain' (fun a b => a.2 ≤ b.1)) :
    (∀ g ∈ segments_to_delete speech video_duration gap_threshold,
        gap_threshold < g.2 - g.1 ∧ 0 ≤ g.1) ∧
      (segments_to_delete speech video_duration gap_threshold).Chain'
        (fun a b => a.2 ≤ b.1) := by
  match speech with
  | [] => simp [segments_to_delete]
  | first :: rest =>
    have hfirst : 0 ≤ first.1 ∧ first.1 ≤ first.2 := hb first (by simp)
    obtain ⟨hg1, hg2, hg3⟩ := gapsGo_spec gap_threshold rest first.2
      (fun p hp => (hb p (by simp [hp])).2) (List.chain'_cons'.mp hc).2
      (List.chain'_cons'.mp hc).1
    simp only [segments_to_delete]
    set mid := gapsGo gap_threshold first.2 rest with hmid
    have hfirst2 : (0 : ℚ) ≤ first.2 := le_trans hfirst.1 hfirst.2
    constructor
    · intro g hg
      rcases List.mem_append.mp hg with hg | hg
      · rcases List.mem_append.mp hg with hg | hg
        · by_cases h : first.1 > gap_threshold
          · simp [h] at hg
            subst hg
            exact ⟨by simpa using h, le_refl _⟩
          · simp [h] at hg
        · have := hg1 g hg
          exact ⟨this.1, le_trans hfirst2 this.2.1⟩
      · by_cases h : video_duration - mid.2 > gap_threshold
        · simp [h] at hg
          subst hg
          exact ⟨by linarith, le_trans hfirst2 hg3⟩
        · simp [h] at hg
    · rw [List.append_assoc]
      apply List.chain'_append.mpr
      refine ⟨?_, ?_, ?_⟩
      · by_cases h : first.1 > gap_threshold <;> simp [h]
      · apply List.chain'_append.mpr
        refine ⟨hg2, ?_, ?_⟩
        · by_cases h : video_duration - mid.2 > gap_threshold <;> simp [h]
        · intro x hx y hy
          by_cases h : video_duration - mid.2 > gap_threshold
          · simp [h] at hy
            subst hy
            exact (hg1 x (List.mem_of_mem_getLast? hx)).2.2
          · simp [h] at hy
      · intro x hx y hy
        by_cases h : first.1 > gap_threshold
        · simp [h] at hx
          subst hx
          rcases List.mem_append.mp (List.mem_of_mem_head? hy) with hy' | hy'
          · exact le_trans hfirst.2 (hg1 y hy').2.1
          · by_cases h2 : video_duration - mid.2 > gap_threshold
            · simp [h2] at hy'
              subst hy'
              exact le_trans hfirst.2 hg3
            · simp [h2] at hy'
        · simp [h] at hx

/-- Propagation along a chain of intervals whose ends dominate the next
starts: every later interval starts at or after the end of the head. -/
theorem chain_le_propagate :
    ∀ (l : List (ℚ × ℚ)) (x : ℚ × ℚ),
      (x :: l).Chain' (fun a b => a.2 ≤ b.1) →
      (∀ d ∈ x :: l, d.1 ≤ d.2) →
      ∀ d ∈ l, x.2 ≤ d.1 := by
  intro l
  induction l with
  | nil => intro x _ _ d hd; simp at hd
  | cons y l ih =>
    intro x hc hb d hd
    have hxy : x.2 ≤ y.1 := (List.chain'_cons.mp hc).1
    rcases List.mem_cons.mp hd with hd | hd
    · subst hd
      exact hxy
    · have := ih y (List.chain'_cons.mp hc).2 (fun e he => hb e (List.mem_cons_of_mem x he)) d hd
      have hy : y.1 ≤ y.2 := hb y (by simp)
      linarith

/-- A chain of intervals with nonnegative widths is pairwise ordered. -/
theorem chain_le_pairwise :
    ∀ (l : List (ℚ × ℚ)),
      l.Chain' (fun a b => a.2 ≤ b.1) →
      (∀ d ∈ l, d.1 ≤ d.2) →
      l.Pairwise (fun a b => a.2 ≤ b.1) := by
  intro l
  induction l with
  | nil => intro _ _; simp
  | cons x l ih =>
    intro hc hb
    refine List.pairwise_cons.mpr ⟨chain_le_propagate l x hc hb, ?_⟩
    exact ih (List.chain'_cons'.mp hc).2 (fun d hd => hb d (by simp [hd]))

/-- Every keep interval emitted by the keep loop is nondegenerate and starts
at or after the running open point, and the emitted intervals are chained:
each starts at or after the end of the previous one. -/
theorem keepGo_spec (half_gap video_duration : ℚ) (hhalf : 0 < half_gap) :
    ∀ (dels : List (ℚ × ℚ)) (previous_keep_end : ℚ),
      (∀ d ∈ dels, 2 * half_gap < d.2 - d.1 ∧ previous_keep_end ≤ d.1) →
      dels.Pairwise (fun a b => a.2 ≤ b.1) →
      (∀ k ∈ keepGo half_gap video_duration previous_keep_end dels,
          k.1 < k.2 ∧ previous_keep_end ≤ k.1) ∧
        (keepGo half_gap video_duration previous_keep_end dels).Chain'
          (fun a b => a.2 ≤ b.1) := by
  intro dels
  induction dels with
  | nil =>
    intro previous_keep_end _ _
    constructor
    · intro k hk
      simp only [keepGo] at hk
      by_cases h : previous_keep_end < video_duration
      · simp [h] at hk
        subst hk
        exact ⟨h, le_refl _⟩
      · simp [h] at hk
    · simp only [keepGo]
      by_cases h : previous_keep_end < video_duration <;> simp [h]
  | cons d rest ih =>
    intro previous_keep_end hd hp
    have hd0 := hd d (by simp)
    have hguard : d.1 + half_gap > previous_keep_end := by linarith [hd0.2]
    have hnext : ∀ d' ∈ rest, 2 * half_gap < d'.2 - d'.1 ∧ d.2 - half_gap ≤ d'.1 := by
      intro d' hd'
      have h1 := hd d' (by simp [hd'])
      have h2 := (List.pairwise_cons.mp hp).1 d' hd'
      exact ⟨h1.1, by linarith⟩
    obtain ⟨ih1, ih2⟩ := ih (d.2 - half_gap) hnext (List.pairwise_cons.mp hp).2
    simp only [keepGo, hguard, if_pos, List.singleton_append]
    constructor
    · intro k hk
      rcases List.mem_cons.mp hk with hk | hk
      · subst hk
        refine ⟨?_, le_refl _⟩
        show previous_keep_end < d.1 + half_gap
        linarith [hd0.2]
      · have h1 := ih1 k hk
        refine ⟨h1.1, ?_⟩
        have h2 : d.2 - half_gap ≤ k.1 := h1.2
        linarith [hd0.1, hd0.2]
    · rw [List.chain'_cons']
      refine ⟨?_, ih2⟩
      intro y hy
      have := (ih1 y (List.mem_of_mem_head? hy)).2
      simp only
      linarith [hd0.1]

/-- Claim C4: for every non-empty ordered, non-overlapping speech sequence
within the video and every positive gap threshold, every keep interval
emitted by the segmentation engine satisfies end > start, and the keep
intervals are strictly increasing and pairwise non-overlapping: each
interval starts at or after the end of the previous one. -/
theorem computeKeepIntervals_invariant (speech : List (ℚ × ℚ))
    (video_duration gap_threshold : ℚ)
    (_hne : speech ≠ [])
    (hb : ∀ p ∈ speech, 0 ≤ p.1 ∧ p.1 ≤ p.2 ∧ p.2 ≤ video_duration)
    (hc : speech.Chain' (fun a b => a.2 ≤ b.1))
    (hthr : 0 < gap_threshold) :
    (∀ k ∈ computeKeepIntervals speech video_duration gap_threshold, k.1 < k.2) ∧
      (computeKeepIntervals speech video_duration gap_threshold).Chain'
        (fun a b => a.2 ≤ b.1) := by
  obtain ⟨hd1, hd2⟩ := segments_to_delete_spec speech video_duration gap_threshold
    (fun p hp => ⟨(hb p hp).1, (hb p hp).2.1⟩) hc
  unfold computeKeepIntervals
  by_cases hdels : segments_to_delete speech video_duration gap_threshold = []
  · simp [hdels]
  · simp only [hdels, if_neg, ite_false]
    unfold segments_to_keep
    have hwidth : ∀ d ∈ segments_to_delete speech video_duration gap_threshold,
        d.1 ≤ d.2 := by
      intro d hd
      have := (hd1 d hd).1
      linarith
    obtain ⟨hk1, hk2⟩ := keepGo_spec (gap_threshold / 2) video_duration (by linarith)
      (segments_to_delete speech video_duration gap_threshold) 0
      (fun d hd => ⟨by linarith [(hd1 d hd).1], (hd1 d hd).2⟩)
      (chain_le_pairwise _ hd2 hwidth)
    exact ⟨fun k hk => (hk1 k hk).1, hk2⟩

/-- Concrete witness for computeKeepIntervals_invariant. -/
theorem computeKeepIntervals_invariant_witness :
    (∀ k ∈ computeKeepIntervals [((2 : ℚ), 5)] 10 1, k.1 < k.2) ∧
      (computeKeepIntervals [((2 : ℚ), 5)] 10 1).Chain' (fun a b => a.2 ≤ b.1) :=
  computeKeepIntervals_invariant [((2 : ℚ), 5)] 10 1 (by simp)
    (by intro p hp; simp at hp; subst hp; norm_num) (by simp) (by norm_num)

/-- Claim C10: whenever at least one silence gap is materialized, the first
emitted keep interval starts exactly at time 0; and when a leading silence
gap exists (the first speech segment starts after the threshold), the first
keep interval is exactly the initial slice from 0 to half the threshold of
that leading silence. -/
theorem first_keep_interval_starts_at_zero (speech : List (ℚ × ℚ))
    (video_duration gap_threshold : ℚ) (first : ℚ × ℚ) (rest : List (ℚ × ℚ))
    (hspeech : speech = first :: rest)
    (hb : ∀ p ∈ speech, 0 ≤ p.1 ∧ p.1 ≤ p.2)
    (hc : speech.Chain' (fun a b => a.2 ≤ b.1))
    (hthr : 0 < gap_threshold)
    (hgaps : segments_to_delete speech video_duration gap_threshold ≠ []) :
    ((computeKeepIntervals speech video_duration gap_threshold).head?).map Prod.fst =
        some 0 ∧
      (gap_threshold < first.1 →
        (computeKeepIntervals speech video_duration gap_threshold).head? =
          some ((0 : ℚ), gap_threshold / 2)) := by
  obtain ⟨hd1, _⟩ := segments_to_delete_spec speech video_duration gap_threshold hb hc
  unfold computeKeepIntervals segments_to_keep
  simp only [hgaps, ite_false, if_neg]
  cases hdl : segments_to_delete speech video_duration gap_threshold with
  | nil => exact absurd hdl hgaps
  | cons d ds =>
    have hd0 : 0 ≤ d.1 := (hd1 d (by rw [hdl]; simp)).2
    have hguard : d.1 + gap_threshold / 2 > 0 := by linarith
    constructor
    · simp [keepGo, hguard]
    · intro hlead
      have hhead : (segments_to_delete speech video_duration gap_threshold).head? =
          some ((0 : ℚ), first.1) := by
        subst hspeech
        simp [segments_to_delete, hlead]
      rw [hdl] at hhead
      simp only [List.head?_cons, Option.some.injEq] at hhead
      subst hhead
      simp [keepGo, hguard, hthr]

/-- Concrete witness for first_keep_interval_starts_at_zero. -/
theorem first_keep_interval_starts_at_zero_witness :
    ((computeKeepIntervals [((2 : ℚ), 5)] 10 1).head?).map Prod.fst = some 0 ∧
      ((1 : ℚ) < 2 →
        (computeKeepIntervals [((2 : ℚ), 5)] 10 1).head? = some ((0 : ℚ), 1 / 2)) :=
  first_keep_interval_starts_at_zero [((2 : ℚ), 5)] 10 1 (2, 5) [] rfl
    (by intro p hp; simp at hp; subst hp; norm_num) (by simp) (by norm_num)
    (by norm_num [segments_to_delete, gapsGo, List.cons_ne_nil])

/-- Claim C1, counterexample: on speechIntervals = [(2,5)], totalDuration =
10, gapThreshold = 1, the silence gaps are [(0,2), (5,10)] as the claim
says, but the keep-interval computation does not return the two intervals
[(0, 2.5), (4.5, 10)] the claim requires. -/
theorem keep_intervals_example_refuted :
    segments_to_delete [((2 : ℚ), 5)] 10 1 = [(0, 2), (5, 10)] ∧
      computeKeepIntervals [((2 : ℚ), 5)] 10 1 ≠ [(0, 5 / 2), (9 / 2, 10)] := by
  constructor
  · norm_num [segments_to_delete, gapsGo]
  · norm_num [computeKeepIntervals, segments_to_delete, gapsGo, segments_to_keep,
      keepGo, List.cons_ne_nil]

/-- Claim C1, amended: on speechIntervals = [(2,5)], totalDuration = 10,
gapThreshold = 1, the silence gaps are [(0,2), (5,10)], and the keep loop
closes the first keep block at silence start + half = 0.5, so it returns
the three intervals [(0, 0.5), (1.5, 5.5), (9.5, 10)]. -/
theorem keep_intervals_example :
    segments_to_delete [((2 : ℚ), 5)] 10 1 = [(0, 2), (5, 10)] ∧
      computeKeepIntervals [((2 : ℚ), 5)] 10 1 =
        [(0, 1 / 2), (3 / 2, 11 / 2), (19 / 2, 10)] := by
  constructor
  · norm_num [segments_to_delete, gapsGo]
  · norm_num [computeKeepIntervals, segments_to_delete, gapsGo, segments_to_keep,
      keepGo, List.cons_ne_nil]

/-- Structure of buildGo: lengths, per-interval trim pairs, and labels. -/
theorem buildGo_spec :
    ∀ (keeps : List (ℚ × ℚ)) (i : ℕ),
      (buildGo i keeps).1.length = 2 * keeps.length ∧
        (buildGo i keeps).2 = List.range' i keeps.length ∧
        ∀ k, k < keeps.length →
          ∀ se ∈ keeps[k]?,
            (buildGo i keeps).1[2 * k]? = some (FilterOp.vtrim (i + k) se.1 se.2) ∧
              (buildGo i keeps).1[2 * k + 1]? = some (FilterOp.atrim (i + k) se.1 se.2) := by
  intro keeps
  induction keeps with
  | nil => intro i; simp [buildGo]
  | cons se rest ih =>
    intro i
    obtain ⟨ih1, ih2, ih3⟩ := ih (i + 1)
    refine ⟨by simp [buildGo, ih1]; ring, ?_, ?_⟩
    · simp [buildGo, ih2, List.range'_succ]
    · intro k hk se' hse'
      cases k with
      | zero =>
        simp at hse'
        subst hse'
        simp [buildGo]
      | succ k =>
        have hk' : k < rest.length := by simpa using hk
        have hse'' : rest[k]? = some se' := by simpa using hse'
        have := ih3 k hk' se' (by simp [hse''])
        have harith : i + 1 + k = i + (k + 1) := by omega
        rw [harith] at this
        constructor
        · have h2 : 2 * (k + 1) = 2 * k + 1 + 1 := by ring
          rw [h2]
          simp only [buildGo, List.getElem?_cons_succ]
          exact this.1
        · have h2 : 2 * (k + 1) + 1 = 2 * k + 1 + 1 + 1 := by ring
          rw [h2]
          simp only [buildGo, List.getElem?_cons_succ]
          exact this.2

/-- Claim C8: for every non-empty keep-interval list, the synthesized
transcode spec has exactly one video trim and one audio trim per keep
interval, adjacent and paired one-to-one in keep-interval order, the concat
pair labels are exactly the interval indices in order, and the concat
segment count equals the number of keep intervals. -/
theorem buildTranscodeSpec_paired (keeps : List (ℚ × ℚ)) (_hne : keeps ≠ []) :
    (buildTranscodeSpec keeps).filter_parts.length = 2 * keeps.length ∧
      (∀ k, k < keeps.length →
        ∀ se ∈ keeps[k]?,
          (buildTranscodeSpec keeps).filter_parts[2 * k]? =
              some (FilterOp.vtrim k se.1 se.2) ∧
            (buildTranscodeSpec keeps).filter_parts[2 * k + 1]? =
              some (FilterOp.atrim k se.1 se.2)) ∧
      (buildTranscodeSpec keeps).concat_inputs = List.range keeps.length ∧
      (buildTranscodeSpec keeps).concat_n = keeps.length := by
  obtain ⟨h1, h2, h3⟩ := buildGo_spec keeps 0
  refine ⟨h1, ?_, ?_, rfl⟩
  · intro k hk se hse
    have := h3 k hk se hse
    simpa using this
  · simpa [List.range_eq_range'] using h2

/-- Concrete witness for buildTranscodeSpec_paired. -/
theorem buildTranscodeSpec_paired_witness :
    (buildTranscodeSpec [((0 : ℚ), 1), (2, 3)]).filter_parts.length = 2 * 2 ∧
      (∀ k, k < ([((0 : ℚ), 1), (2, 3)] : List (ℚ × ℚ)).length →
        ∀ se ∈ ([((0 : ℚ), 1), (2, 3)] : List (ℚ × ℚ))[k]?,
          (buildTranscodeSpec [((0 : ℚ), 1), (2, 3)]).filter_parts[2 * k]? =
              some (FilterOp.vtrim k se.1 se.2) ∧
            (buildTranscodeSpec [((0 : ℚ), 1), (2, 3)]).filter_parts[2 * k + 1]? =
              some (FilterOp.atrim k se.1 se.2)) ∧
      (buildTranscodeSpec [((0 : ℚ), 1), (2, 3)]).concat_inputs = List.range 2 ∧
      (buildTranscodeSpec [((0 : ℚ), 1), (2, 3)]).concat_n = 2 :=
  buildTranscodeSpec_paired [((0 : ℚ), 1), (2, 3)] (by simp)

/-! ## Batch review pass (core/editor.py, ai_review_chunks) -/

/-- Embeds one entry of the ChunkReviewResponse of ai_review_chunks
(editor.py lines 150-152): the srt index named by the external service and
the replacement text. -/
structure ChunkCorrection where
  index : ℤ
  content : String
deriving DecidableEq

/-- Embeds the per-correction application of ai_review_chunks (lines
196-200): find the first line of the current chunk whose srt index matches
the correction; when found and its text differs, overwrite that line's text
and signal an update; otherwise leave the chunk unchanged and signal
nothing. -/
def applyOne (c : ChunkCorrection) : List SubLine → List SubLine × Bool
  | [] => ([], false)
  | s :: rest =>
    if s.index = c.index then
      if s.content ≠ c.content then ({ s with content := c.content } :: rest, true)
      else (s :: rest, false)
    else
      let r := applyOne c rest
      (s :: r.1, r.2)

/-- Embeds the corrections loop of ai_review_chunks (lines 188-200): apply
every correction of the response in order to the chunk, counting the
applied updates. -/
def applyCorrections (chunk : List SubLine) (cs : List ChunkCorrection) :
    List SubLine × ℕ :=
  cs.foldl (fun acc c =>
    let r := applyOne c acc.1
    (r.1, acc.2 + (if r.2 then 1 else 0))) (chunk, 0)

/-- Embeds the handling of one window of ai_review_chunks: a response of
none models a failed correction request (lines 205-206), which degrades to
no corrections for that window; otherwise the corrections are applied. -/
def processWindow (response : Option (List ChunkCorrection)) (chunk : List SubLine) :
    List SubLine :=
  match response with
  | some cs => (applyCorrections chunk cs).1
  | none => chunk

/-- Embeds the chunking loop of ai_review_chunks (line 157): windows of 100
lines starting at offsets 0, 100, 200, ..., each processed with its own
correction response keyed by the window's start offset; the mutation of the
shared subtitles list is embedded as the concatenation of the processed
windows. -/
def reviewGo (responses : ℕ → Option (List ChunkCorrection)) :
    ℕ → List SubLine → List SubLine
  | _, [] => []
  | i, s :: rest =>
    processWindow (responses i) ((s :: rest).take 100) ++
      reviewGo responses (i + 100) ((s :: rest).drop 100)
termination_by _ subs => subs.length
decreasing_by simp; omega

/-- Embeds ai_review_chunks (editor.py lines 143-209) on parsed subtitles:
all windows processed from offset 0. -/
def ai_review_chunks (responses : ℕ → Option (List ChunkCorrection))
    (subtitles : List SubLine) : List SubLine :=
  reviewGo responses 0 subtitles

/-! ## Concrete inputs used by the cascade-merge witness -/

/-- First line of the witness input. -/
def wLineA : SubLine := ⟨1, 0, 1, "ab"⟩

/-- Second line of the witness input. -/
def wLineB : SubLine := ⟨2, 1, 2, "cd"⟩

/-- Witness subtitle list. -/
def wSubs : List SubLine := [wLineA, wLineB]

/-- Witness task outcomes: line 0 is refined to "ab" with the merge flag
set, line 1 to "cd". -/
def wOut : ℕ → Option ModifiedSentence :=
  fun j => if j = 0 then some ⟨"ab", true⟩ else some ⟨"cd", false⟩

/-- Witness line for the reconciliation claims. -/
def wOld : SubLine := ⟨5, 0, 1, "old"⟩

/-- Witness correction naming id 5 with different text. -/
def wCorr : ChunkCorrection := ⟨5, "new"⟩

/-! ## Reassembly loop infrastructure -/

/-- One loop iteration never touches final_subtitles. -/
theorem reasmStep_finals (r : ℕ → Option ModifiedSentence) (st : ReasmState) (i : ℕ) :
    (reasmStep r st i).finals = st.finals := by
  unfold reasmStep
  split
  · rfl
  · split
    · split
      · split <;> rfl
      · rfl
    · rfl

/-- The whole reassembly loop never touches final_subtitles. -/
theorem reasmGoKeys_finals (r : ℕ → Option ModifiedSentence) :
    ∀ (l : List ℕ) (st : ReasmState), (reasmGoKeys r l st).finals = st.finals := by
  intro l
  induction l with
  | nil => intro st; rfl
  | cons i rest ih =>
    intro st
    simp only [reasmGoKeys]
    rw [ih, reasmStep_finals]

/-- The final_subtitles accumulator of the reassembly step is always empty. -/
theorem reassemble_finals_nil (subtitles : List SubLine)
    (results : List (ℕ × ModifiedSentence)) :
    (reassemble subtitles results).finals = [] :=
  reasmGoKeys_finals _ _ _

/-- Claim C2, code bug: ai_refine_subtitles never appends to final_subtitles
(editor.py line 245 initializes it, lines 249-262 only mutate the parsed
subtitles in place), so the sequence it writes and returns is empty even on
a non-empty input whose only task succeeded; it does not contain one line
per non-consumed position and no fresh ids are ever assigned. -/
theorem ai_refine_output_always_empty :
    ai_refine_output [⟨1, 0, 1, "hello"⟩] (fun _ => some ⟨"hello", false⟩) [0] = [] ∧
      ([⟨1, 0, 1, "hello"⟩] : List SubLine) ≠ [] :=
  ⟨reassemble_finals_nil _ _, by simp⟩

/-- Lookup in the dispatched results dict: present exactly at the completed
positions, with the resolved result as value. -/
theorem dictLookup_dispatchResults (subtitles : List SubLine)
    (outcomes : ℕ → Option ModifiedSentence) :
    ∀ (order : List ℕ) (k : ℕ),
      dictLookup (dispatchResults subtitles outcomes order) k =
        if k ∈ order then some (resolveResult subtitles outcomes k) else none := by
  intro order
  induction order with
  | nil => intro k; simp [dispatchResults, dictLookup]
  | cons idx rest ih =>
    intro k
    by_cases h : idx = k
    · subst h
      simp [dispatchResults, dictLookup, List.find?_cons]
    · have hbeq : (idx == k) = false := by simp [h]
      simp only [dispatchResults, List.map_cons, dictLookup, List.find?_cons, hbeq]
      have := ih k
      simp only [dispatchResults, dictLookup] at this
      rw [this]
      by_cases hk : k ∈ rest <;> simp [hk, Ne.symm h]

/-- The keys of the dispatched results dict are the completion order. -/
theorem dispatchResults_keys (subtitles : List SubLine)
    (outcomes : ℕ → Option ModifiedSentence) (order : List ℕ) :
    (dispatchResults subtitles outcomes order).map Prod.fst = order := by
  simp [dispatchResults, List.map_map, Function.comp_def]

/-- Sorting a permutation of range n with insertionSort yields range n. -/
theorem insertionSort_perm_range (order : List ℕ) (n : ℕ)
    (horder : order.Perm (List.range n)) :
    List.insertionSort (· ≤ ·) order = List.range n :=
  List.eq_of_perm_of_sorted ((List.perm_insertionSort _ order).trans horder)
    (List.sorted_insertionSort _ order) (List.sorted_le_range n)

/-- Claim C5: for every input and every completion order covering all
positions, the dispatch stores a result for every input position; and when
the rewrite task for a line fails or returns no data, that position's
result is exactly the original line text with the merge flag false. -/
theorem refine_dispatch_total_fallback (subtitles : List SubLine)
    (outcomes : ℕ → Option ModifiedSentence) (order : List ℕ)
    (horder : order.Perm (List.range subtitles.length))
    (i : ℕ) (hi : i < subtitles.length) :
    dictLookup (dispatchResults subtitles outcomes order) i =
        some (resolveResult subtitles outcomes i) ∧
      (outcomes i = none → ∀ s ∈ subtitles[i]?,
        resolveResult subtitles outcomes i = ⟨s.content, false⟩) := by
  constructor
  · rw [dictLookup_dispatchResults]
    have : i ∈ order := horder.mem_iff.mpr (List.mem_range.mpr hi)
    simp [this]
  · intro hnone s hs
    rw [Option.mem_def] at hs
    simp [resolveResult, hnone, fallbackResult, hs]

/-- Concrete witness for refine_dispatch_total_fallback: position 1 fails
and degrades to its original text. -/
theorem refine_dispatch_total_fallback_witness :
    dictLookup
        (dispatchResults [⟨1, 0, 1, "aa"⟩, ⟨2, 1, 2, "bb"⟩]
          (fun j => if j = 0 then some ⟨"xx", true⟩ else none) [1, 0]) 1 =
        some (resolveResult [⟨1, 0, 1, "aa"⟩, ⟨2, 1, 2, "bb"⟩]
          (fun j => if j = 0 then some ⟨"xx", true⟩ else none) 1) ∧
      ((fun j => if j = 0 then (some ⟨"xx", true⟩ : Option ModifiedSentence) else none) 1 =
          none →
        ∀ s ∈ ([⟨1, 0, 1, "aa"⟩, ⟨2, 1, 2, "bb"⟩] : List SubLine)[1]?,
          resolveResult [⟨1, 0, 1, "aa"⟩, ⟨2, 1, 2, "bb"⟩]
            (fun j => if j = 0 then some ⟨"xx", true⟩ else none) 1 = ⟨s.content, false⟩) :=
  refine_dispatch_total_fallback [⟨1, 0, 1, "aa"⟩, ⟨2, 1, 2, "bb"⟩]
    (fun j => if j = 0 then some ⟨"xx", true⟩ else none) [1, 0] (by decide) 1 (by decide)

/-- Claim C7: the outcome of the refinement pipeline does not depend on the
order in which the concurrent per-line tasks complete: any two completion
orders covering all positions produce the same result mapping and the same
final reassembled state. -/
theorem refine_order_independent (subtitles : List SubLine)
    (outcomes : ℕ → Option ModifiedSentence) (order₁ order₂ : List ℕ)
    (h₁ : order₁.Perm (List.range subtitles.length))
    (h₂ : order₂.Perm (List.range subtitles.length)) :
    dictLookup (dispatchResults subtitles outcomes order₁) =
        dictLookup (dispatchResults subtitles outcomes order₂) ∧
      ai_refine_subtitles subtitles outcomes order₁ =
        ai_refine_subtitles subtitles outcomes order₂ := by
  have hlook : dictLookup (dispatchResults subtitles outcomes order₁) =
      dictLookup (dispatchResults subtitles outcomes order₂) := by
    funext k
    rw [dictLookup_dispatchResults, dictLookup_dispatchResults]
    simp only [h₁.mem_iff, h₂.mem_iff]
  have hkeys : sortedKeys (dispatchResults subtitles outcomes order₁) =
      sortedKeys (dispatchResults subtitles outcomes order₂) := by
    unfold sortedKeys
    rw [dispatchResults_keys, dispatchResults_keys,
      insertionSort_perm_range order₁ _ h₁, insertionSort_perm_range order₂ _ h₂]
  refine ⟨hlook, ?_⟩
  unfold ai_refine_subtitles reassemble
  rw [hlook, hkeys]

/-- Concrete witness for refine_order_independent: reversed completion
order yields the same state. -/
theorem refine_order_independent_witness :
    dictLookup
        (dispatchResults [⟨1, 0, 1, "aa"⟩, ⟨2, 1, 2, "bb"⟩]
          (fun j => if j = 0 then some ⟨"xx", true⟩ else none) [1, 0]) =
        dictLookup
          (dispatchResults [⟨1, 0, 1, "aa"⟩, ⟨2, 1, 2, "bb"⟩]
            (fun j => if j = 0 then some ⟨"xx", true⟩ else none) [0, 1]) ∧
      ai_refine_subtitles [⟨1, 0, 1, "aa"⟩, ⟨2, 1, 2, "bb"⟩]
          (fun j => if j = 0 then some ⟨"xx", true⟩ else none) [1, 0] =
        ai_refine_subtitles [⟨1, 0, 1, "aa"⟩, ⟨2, 1, 2, "bb"⟩]
          (fun j => if j = 0 then some ⟨"xx", true⟩ else none) [0, 1] :=
  refine_order_independent [⟨1, 0, 1, "aa"⟩, ⟨2, 1, 2, "bb"⟩]
    (fun j => if j = 0 then some ⟨"xx", true⟩ else none) [1, 0] [0, 1]
    (by decide) (by decide)

/-- One loop iteration preserves the number of subtitle lines. -/
theorem reasmStep_subs_length (r : ℕ → Option ModifiedSentence) (st : ReasmState) (i : ℕ) :
    (reasmStep r st i).subs.length = st.subs.length := by
  unfold reasmStep
  split
  · rfl
  · split
    · split
      · split <;> simp [List.length_set]
      · simp [List.length_set]
    · rfl

/-- The loop preserves the number of subtitle lines. -/
theorem reasmGoKeys_subs_length (r : ℕ → Option ModifiedSentence) :
    ∀ (l : List ℕ) (st : ReasmState),
      (reasmGoKeys r l st).subs.length = st.subs.length := by
  intro l
  induction l with
  | nil => intro st; rfl
  | cons i rest ih =>
    intro st
    simp only [reasmGoKeys]
    rw [ih, reasmStep_subs_length]

/-- One loop iteration at position i changes no subtitle entry other than
entry i. -/
theorem reasmStep_getElem_ne (r : ℕ → Option ModifiedSentence) (st : ReasmState)
    (i j : ℕ) (h : j ≠ i) : (reasmStep r st i).subs[j]? = st.subs[j]? := by
  unfold reasmStep
  split
  · rfl
  · split
    · split
      · split
        · simp [List.getElem?_set_ne (Ne.symm h)]
        · simp [List.getElem?_set_ne (Ne.symm h)]
      · simp [List.getElem?_set_ne (Ne.symm h)]
    · rfl

/-- Iterating over keys none of which is j leaves subtitle entry j
unchanged. -/
theorem reasmGoKeys_getElem_notmem (r : ℕ → Option ModifiedSentence) :
    ∀ (l : List ℕ) (st : ReasmState) (j : ℕ), j ∉ l →
      (reasmGoKeys r l st).subs[j]? = st.subs[j]? := by
  intro l
  induction l with
  | nil => intro st j _; rfl
  | cons i rest ih =>
    intro st j hj
    simp only [reasmGoKeys]
    rw [ih _ j (fun h => hj (List.mem_cons_of_mem i h)),
      reasmStep_getElem_ne r st i j (fun h => hj (by simp [h]))]

/-- One loop iteration only adds to the skip set. -/
theorem reasmStep_skips_mono (r : ℕ → Option ModifiedSentence) (st : ReasmState)
    (i : ℕ) : st.skips ⊆ (reasmStep r st i).skips := by
  unfold reasmStep
  split
  · exact fun _ h => h
  · split
    · split
      · split
        · exact fun m hm => List.mem_cons_of_mem _ hm
        · exact fun _ h => h
      · exact fun _ h => h
    · exact fun _ h => h

/-- The loop only adds to the skip set. -/
theorem reasmGoKeys_skips_mono (r : ℕ → Option ModifiedSentence) :
    ∀ (l : List ℕ) (st : ReasmState), st.skips ⊆ (reasmGoKeys r l st).skips := by
  intro l
  induction l with
  | nil => intro st _ h; exact h
  | cons i rest ih =>
    intro st m hm
    simp only [reasmGoKeys]
    exact ih (reasmStep r st i) (reasmStep_skips_mono r st i hm)

/-- An iteration at position i adds at most the element i + 1 to the skip
set. -/
theorem reasmStep_mem_skips (r : ℕ → Option ModifiedSentence) (st : ReasmState)
    (i m : ℕ) (hm : m ∈ (reasmStep r st i).skips) : m ∈ st.skips ∨ m = i + 1 := by
  revert hm
  unfold reasmStep
  split
  · exact fun h => Or.inl h
  · split
    · split
      · split
        · intro hm
          rcases List.mem_cons.mp hm with hm | hm
          · exact Or.inr hm
          · exact Or.inl hm
        · exact fun h => Or.inl h
      · exact fun h => Or.inl h
    · exact fun h => Or.inl h

/-- Every element of the final skip set is either initial or the successor
of a processed key. -/
theorem reasmGoKeys_mem_skips (r : ℕ → Option ModifiedSentence) :
    ∀ (l : List ℕ) (st : ReasmState) (m : ℕ), m ∈ (reasmGoKeys r l st).skips →
      m ∈ st.skips ∨ ∃ j ∈ l, m = j + 1 := by
  intro l
  induction l with
  | nil => intro st m hm; exact Or.inl hm
  | cons i rest ih =>
    intro st m hm
    simp only [reasmGoKeys] at hm
    rcases ih (reasmStep r st i) m hm with hm' | ⟨j, hj, hm'⟩
    · rcases reasmStep_mem_skips r st i m hm' with h | h
      · exact Or.inl h
      · exact Or.inr ⟨i, by simp, h⟩
    · exact Or.inr ⟨j, by simp [hj], hm'⟩

/-- Processing a concatenation of key lists processes them in sequence. -/
theorem reasmGoKeys_append (r : ℕ → Option ModifiedSentence) :
    ∀ (l₁ l₂ : List ℕ) (st : ReasmState),
      reasmGoKeys r (l₁ ++ l₂) st = reasmGoKeys r l₂ (reasmGoKeys r l₁ st) := by
  intro l₁
  induction l₁ with
  | nil => intro l₂ st; rfl
  | cons i rest ih =>
    intro l₂ st
    simp only [List.cons_append, reasmGoKeys]
    exact ih l₂ (reasmStep r st i)

/-- Claim C3: in the cascade-merge step, for two adjacent lines whose first
position is live (not consumed by an earlier merge) and whose first result
carries the merge flag while a result exists for the next position: when the
concatenated result texts have at most 30 characters, line i becomes one
line carrying the concatenation, keeping its own start and extending its
end to line i+1's end, and position i+1 is consumed; when the concatenation
has 31 or more characters, the merge flag is ignored, line i keeps its own
timestamps with just its refined text, and position i+1 stays
independent. -/
theorem cascade_merge_bound (subtitles : List SubLine)
    (outcomes : ℕ → Option ModifiedSentence) (order : List ℕ)
    (horder : order.Perm (List.range subtitles.length))
    (i : ℕ) (a b : SubLine)
    (ha : subtitles[i]? = some a) (hb : subtitles[i + 1]? = some b)
    (hflag : (resolveResult subtitles outcomes i).should_merge_next = true)
    (hlive : i ∉ (ai_refine_subtitles subtitles outcomes order).skips) :
    (((resolveResult subtitles outcomes i).output ++
          (resolveResult subtitles outcomes (i + 1)).output).length ≤ 30 →
        (ai_refine_subtitles subtitles outcomes order).subs[i]? =
            some { a with
              content := (resolveResult subtitles outcomes i).output ++
                (resolveResult subtitles outcomes (i + 1)).output,
              endT := b.endT } ∧
          (i + 1) ∈ (ai_refine_subtitles subtitles outcomes order).skips) ∧
      (30 < ((resolveResult subtitles outcomes i).output ++
            (resolveResult subtitles outcomes (i + 1)).output).length →
        (ai_refine_subtitles subtitles outcomes order).subs[i]? =
            some { a with content := (resolveResult subtitles outcomes i).output } ∧
          (i + 1) ∉ (ai_refine_subtitles subtitles outcomes order).skips) := by
  have hi1n : i + 1 < subtitles.length := (List.getElem?_eq_some.mp hb).1
  have hin : i < subtitles.length := by omega
  have hRk : ∀ k, k < subtitles.length →
      dictLookup (dispatchResults subtitles outcomes order) k =
        some (resolveResult subtitles outcomes k) := by
    intro k hk
    rw [dictLookup_dispatchResults]
    have : k ∈ order := horder.mem_iff.mpr (List.mem_range.mpr hk)
    simp [this]
  have hkeys : sortedKeys (dispatchResults subtitles outcomes order) =
      List.range subtitles.length := by
    unfold sortedKeys
    rw [dispatchResults_keys]
    exact insertionSort_perm_range order subtitles.length horder
  set n := subtitles.length with hn
  set R := dictLookup (dispatchResults subtitles outcomes order) with hRdef
  set stPre := reasmGoKeys R (List.range' 0 i) ⟨subtitles, [], []⟩ with hstPre
  have hsplit : List.range' 0 n = List.range' 0 i ++ List.range' i (n - i) := by
    have h := List.range'_append 0 i (n - i) 1
    simp only [Nat.zero_add, Nat.one_mul] at h
    rw [h]
    congr 1
    omega
  have hfe : ai_refine_subtitles subtitles outcomes order =
      reasmGoKeys R (List.range' i (n - i)) stPre := by
    unfold ai_refine_subtitles reassemble
    rw [hkeys, List.range_eq_range', hsplit, reasmGoKeys_append]
  have hnotpre : ∀ j, i ≤ j → j ∉ List.range' 0 i := by
    intro j hj hmem
    rcases List.mem_range'.mp hmem with ⟨k, hk, hjk⟩
    omega
  have hpre_i : stPre.subs[i]? = some a := by
    rw [hstPre, reasmGoKeys_getElem_notmem R _ _ i (hnotpre i le_rfl)]
    exact ha
  have hpre_i1 : stPre.subs[i + 1]? = some b := by
    rw [hstPre, reasmGoKeys_getElem_notmem R _ _ (i + 1) (hnotpre (i + 1) (by omega))]
    exact hb
  have hpre_skips : ∀ m ∈ stPre.skips, m ≤ i := by
    intro m hm
    rw [hstPre] at hm
    rcases reasmGoKeys_mem_skips R _ _ m hm with h | ⟨j, hj, hm'⟩
    · simp at h
    · rcases List.mem_range'.mp hj with ⟨k, hk, hjk⟩
      omega
  have hlive' : i ∉ stPre.skips := by
    intro hmem
    apply hlive
    rw [hfe]
    exact reasmGoKeys_skips_mono R _ stPre hmem
  have hi1pre : i + 1 ∉ stPre.skips := by
    intro hmem
    have := hpre_skips _ hmem
    omega
  have hsucc : List.range' i (n - i) = i :: List.range' (i + 1) (n - i - 1) := by
    have h := List.range'_succ i (n - i - 1) 1
    rw [show n - i - 1 + 1 = n - i from by omega] at h
    exact h
  have hnotrest : ∀ j, j ≤ i → j ∉ List.range' (i + 1) (n - i - 1) := by
    intro j hj hmem
    rcases List.mem_range'.mp hmem with ⟨k, hk, hjk⟩
    omega
  constructor
  · intro h30
    have hst1 : reasmStep R stPre i =
        ⟨stPre.subs.set i
            { a with
              content := (resolveResult subtitles outcomes i).output ++
                (resolveResult subtitles outcomes (i + 1)).output,
              endT := b.endT },
          (i + 1) :: stPre.skips, stPre.finals⟩ := by
      unfold reasmStep
      rw [if_neg hlive']
      simp only [hRk i hin, hpre_i, hflag, if_true, hRk (i + 1) hi1n, hpre_i1]
      rw [if_pos h30]
      simp [List.set_set]
    constructor
    · rw [hfe, hsucc]
      simp only [reasmGoKeys]
      rw [reasmGoKeys_getElem_notmem R _ _ i (hnotrest i le_rfl), hst1]
      simp [List.getElem?_set_self', hpre_i, Function.const]
    · rw [hfe, hsucc]
      simp only [reasmGoKeys]
      apply reasmGoKeys_skips_mono
      rw [hst1]
      simp
  · intro h30
    have hst1 : reasmStep R stPre i =
        ⟨stPre.subs.set i
            { a with content := (resolveResult subtitles outcomes i).output },
          stPre.skips, stPre.finals⟩ := by
      unfold reasmStep
      rw [if_neg hlive']
      simp only [hRk i hin, hpre_i, hflag, if_true, hRk (i + 1) hi1n, hpre_i1]
      rw [if_neg (by omega)]
    constructor
    · rw [hfe, hsucc]
      simp only [reasmGoKeys]
      rw [reasmGoKeys_getElem_notmem R _ _ i (hnotrest i le_rfl), hst1]
      simp [List.getElem?_set_self', hpre_i, Function.const]
    · intro hmem
      rw [hfe, hsucc] at hmem
      simp only [reasmGoKeys] at hmem
      rcases reasmGoKeys_mem_skips R _ _ _ hmem with h | ⟨j, hj, hm'⟩
      · rw [hst1] at h
        exact hi1pre h
      · rcases List.mem_range'.mp hj with ⟨k, hk, hjk⟩
        omega

/-- Concrete witness for cascade_merge_bound: two short adjacent lines with
the merge flag set. -/
theorem cascade_merge_bound_witness :
    (((resolveResult wSubs wOut 0).output ++
          (resolveResult wSubs wOut 1).output).length ≤ 30 →
        (ai_refine_subtitles wSubs wOut [0, 1]).subs[0]? =
            some { wLineA with
              content := (resolveResult wSubs wOut 0).output ++
                (resolveResult wSubs wOut 1).output,
              endT := wLineB.endT } ∧
          (0 + 1) ∈ (ai_refine_subtitles wSubs wOut [0, 1]).skips) ∧
      (30 < ((resolveResult wSubs wOut 0).output ++
            (resolveResult wSubs wOut 1).output).length →
        (ai_refine_subtitles wSubs wOut [0, 1]).subs[0]? =
            some { wLineA with content := (resolveResult wSubs wOut 0).output } ∧
          (0 + 1) ∉ (ai_refine_subtitles wSubs wOut [0, 1]).skips) :=
  cascade_merge_bound wSubs wOut [0, 1] (by decide) 0 wLineA wLineB rfl rfl rfl
    (by decide)

/-! ## Batch review infrastructure -/

/-- Applying one correction preserves the number of lines. -/
theorem applyOne_length (c : ChunkCorrection) :
    ∀ (l : List SubLine), (applyOne c l).1.length = l.length := by
  intro l
  induction l with
  | nil => rfl
  | cons s rest ih =>
    simp only [applyOne]
    by_cases h1 : s.index = c.index
    · by_cases h2 : s.content ≠ c.content <;> simp [h1, h2]
    · simp [h1, ih]

/-- Applying one correction changes no line's id, start or end timestamp. -/
theorem applyOne_frame (c : ChunkCorrection) :
    ∀ (l : List SubLine) (j : ℕ),
      ((applyOne c l).1[j]?).map (fun s : SubLine => (s.index, s.start, s.endT)) =
        (l[j]?).map (fun s : SubLine => (s.index, s.start, s.endT)) := by
  intro l
  induction l with
  | nil => intro j; rfl
  | cons s rest ih =>
    intro j
    simp only [applyOne]
    by_cases h1 : s.index = c.index
    · rw [if_pos h1]
      by_cases h2 : s.content ≠ c.content
      · rw [if_pos h2]
        cases j <;> simp
      · rw [if_neg h2]
    · rw [if_neg h1]
      cases j <;> simp [ih]

/-- Applying a correction list preserves the number of lines. -/
theorem applyCorrections_length (cs : List ChunkCorrection) :
    ∀ (chunk : List SubLine), (applyCorrections chunk cs).1.length = chunk.length := by
  have H : ∀ (cs : List ChunkCorrection) (init : List SubLine × ℕ),
      (cs.foldl (fun acc c =>
        let r := applyOne c acc.1
        (r.1, acc.2 + (if r.2 then 1 else 0))) init).1.length = init.1.length := by
    intro cs
    induction cs with
    | nil => intro init; rfl
    | cons c rest ih =>
      intro init
      simp only [List.foldl_cons]
      rw [ih]
      simp [applyOne_length]
  intro chunk
  exact H cs (chunk, 0)

/-- Applying a correction list changes no line's id, start or end
timestamp. -/
theorem applyCorrections_frame (cs : List ChunkCorrection) :
    ∀ (chunk : List SubLine) (j : ℕ),
      ((applyCorrections chunk cs).1[j]?).map (fun s : SubLine => (s.index, s.start, s.endT)) =
        (chunk[j]?).map (fun s : SubLine => (s.index, s.start, s.endT)) := by
  have H : ∀ (cs : List ChunkCorrection) (init : List SubLine × ℕ) (j : ℕ),
      ((cs.foldl (fun acc c =>
        let r := applyOne c acc.1
        (r.1, acc.2 + (if r.2 then 1 else 0))) init).1[j]?).map
          (fun s : SubLine => (s.index, s.start, s.endT)) =
        (init.1[j]?).map (fun s : SubLine => (s.index, s.start, s.endT)) := by
    intro cs
    induction cs with
    | nil => intro init j; rfl
    | cons c rest ih =>
      intro init j
      simp only [List.foldl_cons]
      rw [ih]
      simp [applyOne_frame]
  intro chunk j
  exact H cs (chunk, 0) j

/-- Processing one window preserves the number of lines. -/
theorem processWindow_length (response : Option (List ChunkCorrection))
    (chunk : List SubLine) : (processWindow response chunk).length = chunk.length := by
  cases response with
  | none => rfl
  | some cs => exact applyCorrections_length cs chunk

/-- Processing one window changes no line's id, start or end timestamp. -/
theorem processWindow_frame (response : Option (List ChunkCorrection))
    (chunk : List SubLine) (j : ℕ) :
    ((processWindow response chunk)[j]?).map (fun s : SubLine => (s.index, s.start, s.endT)) =
      (chunk[j]?).map (fun s : SubLine => (s.index, s.start, s.endT)) := by
  cases response with
  | none => rfl
  | some cs => exact applyCorrections_frame cs chunk j

/-- Processing the empty window yields the empty window. -/
theorem processWindow_nil (response : Option (List ChunkCorrection)) :
    processWindow response [] = [] := by
  have h := processWindow_length response []
  exact List.length_eq_zero.mp h

/-- Unfolding equation of the chunking loop on the empty list. -/
theorem reviewGo_nil (responses : ℕ → Option (List ChunkCorrection)) (i : ℕ) :
    reviewGo responses i [] = [] := by
  simp [reviewGo]

/-- Unfolding equation of the chunking loop on a non-empty list. -/
theorem reviewGo_cons (responses : ℕ → Option (List ChunkCorrection)) (i : ℕ)
    (s : SubLine) (rest : List SubLine) :
    reviewGo responses i (s :: rest) =
      processWindow (responses i) ((s :: rest).take 100) ++
        reviewGo responses (i + 100) ((s :: rest).drop 100) := by
  simp [reviewGo]

/-- The chunking loop preserves the number of lines. -/
theorem reviewGo_length (responses : ℕ → Option (List ChunkCorrection)) :
    ∀ (subs : List SubLine) (i : ℕ), (reviewGo responses i subs).length = subs.length := by
  have H : ∀ (n : ℕ) (subs : List SubLine), subs.length = n → ∀ (i : ℕ),
      (reviewGo responses i subs).length = subs.length := by
    intro n
    induction n using Nat.strong_induction_on with
    | _ n ih =>
      intro subs hlen i
      match subs with
      | [] => simp [reviewGo_nil]
      | s :: rest =>
        rw [reviewGo_cons, List.length_append, processWindow_length, List.length_take]
        have hdrop : ((s :: rest).drop 100).length < n := by
          rw [List.length_drop]
          simp only [List.length_cons] at hlen ⊢
          omega
        rw [ih ((s :: rest).drop 100).length hdrop ((s :: rest).drop 100) rfl (i + 100)]
        rw [List.length_drop]
        simp only [List.length_cons]
        omega
  intro subs i
  exact H subs.length subs rfl i

/-- Window characterization of the chunking loop: the entry at offset
100 * k + p of the output is the entry at offset p of window k processed
with its own correction response. -/
theorem reviewGo_window (responses : ℕ → Option (List ChunkCorrection)) :
    ∀ (k : ℕ) (subs : List SubLine) (i p : ℕ), p < 100 →
      (reviewGo responses i subs)[100 * k + p]? =
        (processWindow (responses (i + 100 * k)) ((subs.drop (100 * k)).take 100))[p]? := by
  intro k
  induction k with
  | zero =>
    intro subs i p hp
    simp only [Nat.mul_zero, Nat.zero_add, List.drop_zero, Nat.add_zero]
    match subs with
    | [] => rw [reviewGo_nil, List.take_nil, processWindow_nil]
    | s :: rest =>
      rw [reviewGo_cons]
      by_cases hlt : p < (processWindow (responses i) ((s :: rest).take 100)).length
      · rw [List.getElem?_append_left hlt]
      · push_neg at hlt
        rw [List.getElem?_append_right hlt]
        rw [processWindow_length, List.length_take] at hlt
        have hlen : (s :: rest).length ≤ p := by
          rcases le_total 100 (s :: rest).length with h | h
          · rw [min_eq_left h] at hlt
            omega
          · rw [min_eq_right h] at hlt
            omega
        have hdrop : (s :: rest).drop 100 = [] := by
          apply List.eq_nil_of_length_eq_zero
          rw [List.length_drop]
          omega
        rw [hdrop, reviewGo_nil]
        rw [List.getElem?_eq_none (by simp)]
        rw [List.getElem?_eq_none]
        rw [processWindow_length, List.length_take]
        omega
  | succ k ih =>
    intro subs i p hp
    match subs with
    | [] =>
      rw [reviewGo_nil, List.drop_eq_nil_of_le (by simp), List.take_nil, processWindow_nil]
      simp
    | s :: rest =>
      rw [reviewGo_cons]
      by_cases h100 : 100 ≤ (s :: rest).length
      · have hpw : (processWindow (responses i) ((s :: rest).take 100)).length = 100 := by
          rw [processWindow_length, List.length_take]
          omega
        rw [List.getElem?_append_right (by omega)]
        rw [hpw]
        have harith : 100 * (k + 1) + p - 100 = 100 * k + p := by ring_nf; omega
        rw [harith, ih ((s :: rest).drop 100) (i + 100) p hp]
        rw [List.drop_drop]
        have h1 : 100 + 100 * k = 100 * (k + 1) := by ring
        have h2 : i + 100 + 100 * k = i + 100 * (k + 1) := by ring
        rw [h1, h2]
      · push_neg at h100
        have hpw : (processWindow (responses i) ((s :: rest).take 100)).length =
            (s :: rest).length := by
          rw [processWindow_length, List.length_take]
          omega
        rw [List.getElem?_append_right (by rw [hpw]; omega)]
        have hdrop : (s :: rest).drop 100 = [] := by
          apply List.eq_nil_of_length_eq_zero
          rw [List.length_drop]
          omega
        rw [hdrop, reviewGo_nil]
        have hdrop2 : (s :: rest).drop (100 * (k + 1)) = [] := by
          apply List.eq_nil_of_length_eq_zero
          rw [List.length_drop]
          have : 100 ≤ 100 * (k + 1) := by omega
          omega
        rw [hdrop2, List.take_nil, processWindow_nil]
        simp

/-- Claim C9: the batch reconciler only ever changes text contents: it
preserves the number of lines, their order, and every line's id, start and
end timestamp; a window whose correction request fails is returned entirely
unchanged; and every window, including those after a failed one, is
processed with exactly its own correction response. -/
theorem review_chunks_frame (responses : ℕ → Option (List ChunkCorrection))
    (subtitles : List SubLine) :
    (ai_review_chunks responses subtitles).length = subtitles.length ∧
      (∀ p : ℕ, ((ai_review_chunks responses subtitles)[p]?).map
          (fun s : SubLine => (s.index, s.start, s.endT)) =
        (subtitles[p]?).map (fun s : SubLine => (s.index, s.start, s.endT))) ∧
      (∀ k p, p < 100 → responses (100 * k) = none →
        (ai_review_chunks responses subtitles)[100 * k + p]? =
          subtitles[100 * k + p]?) ∧
      (∀ k p, p < 100 →
        (ai_review_chunks responses subtitles)[100 * k + p]? =
          (processWindow (responses (100 * k))
            ((subtitles.drop (100 * k)).take 100))[p]?) := by
  have h4 : ∀ k p, p < 100 →
      (ai_review_chunks responses subtitles)[100 * k + p]? =
        (processWindow (responses (100 * k))
          ((subtitles.drop (100 * k)).take 100))[p]? := by
    intro k p hp
    have h := reviewGo_window responses k subtitles 0 p hp
    simpa [ai_review_chunks] using h
  have h3 : ∀ k p, p < 100 → responses (100 * k) = none →
      (ai_review_chunks responses subtitles)[100 * k + p]? =
        subtitles[100 * k + p]? := by
    intro k p hp hnone
    rw [h4 k p hp, hnone]
    show ((subtitles.drop (100 * k)).take 100)[p]? = subtitles[100 * k + p]?
    rw [List.getElem?_take, if_pos hp, List.getElem?_drop]
  have h2 : ∀ p : ℕ, ((ai_review_chunks responses subtitles)[p]?).map
      (fun s : SubLine => (s.index, s.start, s.endT)) =
        (subtitles[p]?).map (fun s : SubLine => (s.index, s.start, s.endT)) := by
    intro p
    have hk : p = 100 * (p / 100) + p % 100 := by omega
    rw [hk, h4 (p / 100) (p % 100) (by omega), processWindow_frame]
    congr 1
    rw [List.getElem?_take, if_pos (by omega), List.getElem?_drop]
  exact ⟨reviewGo_length responses subtitles 0, h2, h3, h4⟩

/-- Concrete witness for review_chunks_frame: a failed window leaves its
line untouched. -/
theorem review_chunks_frame_witness :
    (ai_review_chunks (fun _ => none) [wOld])[100 * 0 + 0]? = [wOld][100 * 0 + 0]? :=
  (review_chunks_frame (fun _ => none) [wOld]).2.2.1 0 0 (by omega) rfl

/-- Claim C6: per-correction reconciliation semantics: a correction naming
an id absent from the window is a no-op; a correction whose first matching
line already carries the same text is a no-op and signals no update; a
correction whose first matching line carries different text overwrites
exactly that line's text and signals one update; and the output inside a
window depends only on that window's own correction response. -/
theorem review_correction_semantics :
    (∀ (chunk : List SubLine) (c : ChunkCorrection),
        (∀ s ∈ chunk, s.index ≠ c.index) → applyOne c chunk = (chunk, false)) ∧
      (∀ (chunk : List SubLine) (c : ChunkCorrection) (j : ℕ) (s : SubLine),
        chunk[j]? = some s → s.index = c.index →
        (∀ k, k < j → ∀ t ∈ chunk[k]?, t.index ≠ c.index) →
        s.content = c.content → applyOne c chunk = (chunk, false)) ∧
      (∀ (chunk : List SubLine) (c : ChunkCorrection) (j : ℕ) (s : SubLine),
        chunk[j]? = some s → s.index = c.index →
        (∀ k, k < j → ∀ t ∈ chunk[k]?, t.index ≠ c.index) →
        s.content ≠ c.content →
        applyOne c chunk = (chunk.set j { s with content := c.content }, true)) ∧
      (∀ (responses responses' : ℕ → Option (List ChunkCorrection))
          (subtitles : List SubLine) (k p : ℕ), p < 100 →
        responses (100 * k) = responses' (100 * k) →
        (ai_review_chunks responses subtitles)[100 * k + p]? =
          (ai_review_chunks responses' subtitles)[100 * k + p]?) := by
  have hbc : ∀ (chunk : List SubLine) (j : ℕ) (c : ChunkCorrection) (s : SubLine),
      chunk[j]? = some s → s.index = c.index →
      (∀ k, k < j → ∀ t ∈ chunk[k]?, t.index ≠ c.index) →
      applyOne c chunk =
        (if s.content = c.content then (chunk, false)
          else (chunk.set j { s with content := c.content }, true)) := by
    intro chunk
    induction chunk with
    | nil => intro j c s hj; simp at hj
    | cons x rest ih =>
      intro j c s hj hidx hpre
      cases j with
      | zero =>
        simp only [List.getElem?_cons_zero, Option.some.injEq] at hj
        subst hj
        simp only [applyOne]
        rw [if_pos hidx]
        by_cases hc : x.content = c.content
        · rw [if_neg (by simp [hc]), if_pos hc]
        · rw [if_pos hc, if_neg hc]
          rfl
      | succ j' =>
        have hx : x.index ≠ c.index := hpre 0 (by omega) x (by simp)
        simp only [applyOne]
        rw [if_neg hx]
        have ih' := ih j' c s (by simpa using hj) hidx
          (fun k hk t ht => hpre (k + 1) (by omega) t (by simpa using ht))
        rw [ih']
        by_cases hc : s.content = c.content
        · rw [if_pos hc, if_pos hc]
        · rw [if_neg hc, if_neg hc]
          rfl
  have ha : ∀ (chunk : List SubLine) (c : ChunkCorrection),
      (∀ s ∈ chunk, s.index ≠ c.index) → applyOne c chunk = (chunk, false) := by
    intro chunk
    induction chunk with
    | nil => intro c _; rfl
    | cons x rest ih =>
      intro c hne
      simp only [applyOne]
      rw [if_neg (hne x (by simp)), ih c (fun s hs => hne s (by simp [hs]))]
  refine ⟨ha, ?_, ?_, ?_⟩
  · intro chunk c j s hj hidx hpre hc
    rw [hbc chunk j c s hj hidx hpre, if_pos hc]
  · intro chunk c j s hj hidx hpre hc
    rw [hbc chunk j c s hj hidx hpre, if_neg hc]
  · intro responses responses' subtitles k p hp hag
    have h₁ := reviewGo_window responses k subtitles 0 p hp
    have h₂ := reviewGo_window responses' k subtitles 0 p hp
    simp only [Nat.zero_add] at h₁ h₂
    show (reviewGo responses 0 subtitles)[100 * k + p]? =
      (reviewGo responses' 0 subtitles)[100 * k + p]?
    rw [h₁, h₂, hag]

/-- Concrete witness for review_correction_semantics: a correction with
matching id and different text overwrites that line. -/
theorem review_correction_semantics_witness :
    applyOne wCorr [wOld] = ([wOld].set 0 { wOld with content := wCorr.content }, true) :=
  review_correction_semantics.2.2.1 [wOld] wCorr 0 wOld rfl rfl
    (fun k hk t _ => absurd hk (by omega)) (by decide)

end CleanVideo
